import Mathlib

/-!
Verification of the Whiteboard per-user flat-file storage engine.

The JavaScript server keeps, per user, a metadata index (`database.json`,
a JSON object mapping note id to note metadata), one markdown content file
per note (`notes/<id>.md`), a per-note media directory, and legacy per-note
directories (`<userId>/<noteId>/` holding either `metadata.json` +
`content.md`, or a combined `note.json`).  Globally it keeps `users.json`
(account records), `users-index.json` (list of user ids) and a `shared/`
directory with one JSON file per share token.

JSON objects are modelled as association lists (insertion-ordered, unique
keys maintained by the operations below, mirroring JavaScript object
semantics: updating an existing key keeps its position, a new key is
appended).  File contents that the server parses as JSON are modelled
already parsed; an unreadable or unparsable file is modelled as `none`,
matching the code's catch-and-default behaviour.
-/

namespace Whiteboard

/-- Lookup in a JS-object-like association list (first binding wins). -/
def alookup {α : Type} : List (String × α) → String → Option α
  | [], _ => none
  | (k, v) :: t, key => if k = key then some v else alookup t key

/-- JS `obj[key] = v`: replace the existing binding in place, else append. -/
def aset {α : Type} : List (String × α) → String → α → List (String × α)
  | [], key, v => [(key, v)]
  | (k, w) :: t, key, v =>
    if k = key then (key, v) :: t else (k, w) :: aset t key v

/-- JS `delete obj[key]`. -/
def aerase {α : Type} : List (String × α) → String → List (String × α)
  | [], _ => []
  | (k, w) :: t, key => if k = key then aerase t key else (k, w) :: aerase t key

/-- Additive merge used by the backup import: for each entry of `entries`,
add it only when its key is absent from the accumulator. -/
def amerge {α : Type} (acc entries : List (String × α)) : List (String × α) :=
  entries.foldl (fun a e => if (alookup a e.1).isSome then a else a ++ [e]) acc

theorem alookup_aset_self {α : Type} (l : List (String × α)) (k : String) (v : α) :
    alookup (aset l k v) k = some v := by
  induction l with
  | nil => simp [aset, alookup]
  | cons h t ih =>
    by_cases hk : h.1 = k
    · simp [aset, hk, alookup]
    · simp [aset, hk, alookup, ih]

theorem alookup_aset_ne {α : Type} (l : List (String × α)) (k k2 : String) (v : α)
    (h : k ≠ k2) : alookup (aset l k v) k2 = alookup l k2 := by
  induction l with
  | nil => simp [aset, alookup, h]
  | cons hd t ih =>
    by_cases hk : hd.1 = k
    · simp [aset, hk, alookup, h, ih]
    · simp [aset, hk, alookup, ih]

theorem aset_self {α : Type} (l : List (String × α)) (k : String) (v : α)
    (h : alookup l k = some v) : aset l k v = l := by
  induction l with
  | nil => simp [alookup] at h
  | cons hd t ih =>
    obtain ⟨k1, v1⟩ := hd
    by_cases hk : k1 = k
    · simp [alookup, hk] at h
      simp [aset, hk, ← h]
    · simp [alookup, hk] at h
      simp [aset, hk, ih h]

theorem alookup_append_of_some {α : Type} (l l2 : List (String × α)) (k : String) (v : α)
    (h : alookup l k = some v) : alookup (l ++ l2) k = some v := by
  induction l with
  | nil => simp [alookup] at h
  | cons hd t ih =>
    by_cases hk : hd.1 = k
    · simp [alookup, hk] at h ⊢; exact h
    · simp [alookup, hk] at h ⊢; exact ih h

theorem alookup_append_single_of_none {α : Type} (l : List (String × α)) (k : String) (v : α)
    (h : alookup l k = none) : alookup (l ++ [(k, v)]) k = some v := by
  induction l with
  | nil => simp [alookup]
  | cons hd t ih =>
    by_cases hk : hd.1 = k
    · simp [alookup, hk] at h
    · simp [alookup, hk] at h ⊢; exact ih h

theorem alookup_aerase_self {α : Type} (l : List (String × α)) (k : String) :
    alookup (aerase l k) k = none := by
  induction l with
  | nil => simp [aerase, alookup]
  | cons hd t ih =>
    by_cases hk : hd.1 = k
    · simp [aerase, hk, ih]
    · simp [aerase, hk, alookup, ih]

theorem aerase_of_none {α : Type} (l : List (String × α)) (k : String)
    (h : alookup l k = none) : aerase l k = l := by
  induction l with
  | nil => simp [aerase]
  | cons hd t ih =>
    by_cases hk : hd.1 = k
    · simp [alookup, hk] at h
    · simp [alookup, hk] at h
      simp [aerase, hk, ih h]

theorem aerase_aerase {α : Type} (l : List (String × α)) (k : String) :
    aerase (aerase l k) k = aerase l k :=
  aerase_of_none _ _ (alookup_aerase_self l k)

theorem amerge_nil {α : Type} (acc : List (String × α)) : amerge acc [] = acc := rfl

theorem amerge_cons {α : Type} (acc : List (String × α)) (e : String × α)
    (t : List (String × α)) :
    amerge acc (e :: t) =
      amerge (if (alookup acc e.1).isSome then acc else acc ++ [e]) t := rfl

theorem amerge_lookup_some {α : Type} (acc entries : List (String × α)) (k : String) (v : α)
    (h : alookup acc k = some v) : alookup (amerge acc entries) k = some v := by
  induction entries generalizing acc with
  | nil => simpa [amerge_nil] using h
  | cons e t ih =>
    rw [amerge_cons]
    by_cases he : (alookup acc e.1).isSome
    · rw [if_pos he]; exact ih acc h
    · rw [if_neg he]; exact ih _ (alookup_append_of_some _ _ _ _ h)

theorem amerge_isSome_of_mem {α : Type} (acc entries : List (String × α)) (k : String) (v : α)
    (h : (k, v) ∈ entries) : (alookup (amerge acc entries) k).isSome := by
  induction entries generalizing acc with
  | nil => simp at h
  | cons e t ih =>
    rw [amerge_cons]
    rcases List.mem_cons.mp h with h1 | h1
    · have hk : e.1 = k := by rw [← h1]
      by_cases he : (alookup acc e.1).isSome
      · rw [if_pos he]
        rcases Option.isSome_iff_exists.mp (hk ▸ he) with ⟨w, hw⟩
        rw [amerge_lookup_some acc t k w hw]
        rfl
      · rw [if_neg he]
        have hnone : alookup acc k = none := by
          rw [← hk]; exact Option.not_isSome_iff_eq_none.mp he
        have hw : alookup (acc ++ [e]) k = some v := by
          rw [← h1]; exact alookup_append_single_of_none acc k v hnone
        rw [amerge_lookup_some _ t k v hw]
        rfl
    · by_cases he : (alookup acc e.1).isSome
      · rw [if_pos he]; exact ih acc h1
      · rw [if_neg he]; exact ih _ h1

theorem amerge_of_all_some {α : Type} (acc entries : List (String × α))
    (h : ∀ e ∈ entries, (alookup acc e.1).isSome) : amerge acc entries = acc := by
  induction entries with
  | nil => exact amerge_nil acc
  | cons e t ih =>
    rw [amerge_cons, if_pos (h e (by simp))]
    exact ih fun x hx => h x (by simp [hx])

theorem foldl_fixed {α β : Type} (f : α → β → α) (s : α) (l : List β)
    (h : ∀ e ∈ l, f s e = s) : l.foldl f s = s := by
  induction l with
  | nil => rfl
  | cons e t ih =>
    simp only [List.foldl_cons, h e (by simp)]
    exact ih fun x hx => h x (by simp [hx])

/-! ## Data model -/

/-- Metadata of one note, as stored in the per-user `database.json` index
(content lives in a separate markdown file).  Timestamps are modelled as
naturals (the code stores ISO strings produced from the clock); account
password hashes and share ids are optional fields, absent fields of the
JSON object are `none`. -/
structure NoteMeta where
  title : String
  tags : List String
  groups : List String
  isPasswordProtected : Bool
  password : Option String
  shareId : Option String
  createdAt : Nat
  updatedAt : Nat
deriving DecidableEq

/-- A full note as the server handles it in memory: the indexed metadata
plus the markdown content. -/
structure Note where
  meta : NoteMeta
  markdown : String
deriving DecidableEq

/-- One legacy per-note directory `<userId>/<noteId>/` : an optional parsed
`metadata.json`, an optional `content.md`, and an optional parsed combined
`note.json` (which already carries its content in the `markdown` field).
`none` means the file is absent or unparsable. -/
structure LegacyDir where
  metadataJson : Option NoteMeta
  contentMd : Option String
  noteJson : Option Note
deriving DecidableEq

/-- One user's on-disk state: the parsed `database.json` (none when the
file is absent or unreadable), the markdown content files keyed by note
id, the set of note ids owning a media directory, and the legacy per-note
directories. -/
structure UserStore where
  db : Option (List (String × NoteMeta))
  files : List (String × String)
  media : List String
  legacy : List (String × LegacyDir)
deriving DecidableEq

/-- The store layout `ensureUserDir` creates for a new user: an index file
holding `\x7b notes: \x7b\x7d \x7d` and an empty notes directory. -/
def freshStore : UserStore := ⟨some [], [], [], []⟩

/-- `loadUserDatabase`: parse the user's `database.json`, defaulting to an
empty notes object when the file is missing or unreadable. -/
def loadUserDatabase (s : UserStore) : List (String × NoteMeta) :=
  s.db.getD []

/-- `readLegacyNoteData`: try the split shape (`metadata.json` plus
optional `content.md`), then the combined `note.json`. -/
def readLegacyNoteData (s : UserStore) (noteId : String) : Option Note :=
  match alookup s.legacy noteId with
  | none => none
  | some dir =>
    match dir.metadataJson with
    | some meta => some ⟨meta, dir.contentMd.getD ""⟩
    | none => dir.noteJson

/-- `readNoteData`: look the note up in the metadata index; on a hit, read
the markdown file (missing file tolerated as empty content); on a miss,
fall back to the legacy reader. -/
def readNoteData (s : UserStore) (noteId : String) : Option Note :=
  match alookup (loadUserDatabase s) noteId with
  | some meta => some ⟨meta, (alookup s.files noteId).getD ""⟩
  | none => readLegacyNoteData s noteId

/-- The filesystem mutations `writeNoteData` performs, in program order. -/
inductive FsEvent where
  | dbWrite (notes : List (String × NoteMeta))
  | fileWrite (noteId : String) (content : String)
deriving DecidableEq

/-- The ordered mutation trace of `writeNoteData`: it saves the updated
metadata index first, then writes the markdown content file. -/
def writeNoteEvents (s : UserStore) (noteId : String) (n : Note) : List FsEvent :=
  [FsEvent.dbWrite (aset (loadUserDatabase s) noteId n.meta),
   FsEvent.fileWrite noteId n.markdown]

/-- Effect of one filesystem mutation on the user's store. -/
def applyFsEvent (s : UserStore) : FsEvent → UserStore
  | FsEvent.dbWrite notes => { s with db := some notes }
  | FsEvent.fileWrite noteId content => { s with files := aset s.files noteId content }

/-- `writeNoteData`: final state after both mutations. -/
def writeNoteData (s : UserStore) (noteId : String) (n : Note) : UserStore :=
  (writeNoteEvents s noteId n).foldl applyFsEvent s

/-- Index (in program order) of the metadata-index write in a trace. -/
def metaWritePos (tr : List FsEvent) : Option Nat :=
  tr.findIdx? fun e => match e with
    | FsEvent.dbWrite _ => true
    | _ => false

/-- Index (in program order) of the content-file write for `noteId`. -/
def contentWritePos (tr : List FsEvent) (noteId : String) : Option Nat :=
  tr.findIdx? fun e => match e with
    | FsEvent.fileWrite i _ => i = noteId
    | _ => false

/-- A concrete store with one indexed note, used as counterexample input. -/
def exMeta : NoteMeta :=
  ⟨"Groceries", ["home"], [], false, none, none, 1, 1⟩

def exStore : UserStore :=
  ⟨some [("abc123", exMeta)], [("abc123", "- milk")], [], []⟩

def exNote : Note := ⟨⟨"Groceries", ["home"], [], false, none, none, 1, 2⟩, "- milk\n- eggs"⟩

/-- C1, as stated, formalised over the mutation trace: the content write
occurs no later than the metadata write. -/
def contentNoLaterThanMeta (tr : List FsEvent) (noteId : String) : Prop :=
  ∃ i j, contentWritePos tr noteId = some i ∧ metaWritePos tr = some j ∧ i ≤ j

/-- C1 counterexample: for a concrete store and note, `writeNoteData`'s
trace places the metadata-index write (position 0) strictly before the
content write (position 1), so the content update is NOT observable no
later than the metadata update. -/
theorem writeNote_content_not_first :
    ¬ contentNoLaterThanMeta (writeNoteEvents exStore "abc123" exNote) "abc123" := by
  rintro ⟨i, j, hi, hj, hle⟩
  have hi2 : (1 : Nat) = i := by
    simpa [writeNoteEvents, contentWritePos, List.findIdx?] using hi
  have hj2 : (0 : Nat) = j := by
    simpa [writeNoteEvents, metaWritePos, List.findIdx?] using hj
  omega

/-- C1 amended: every `writeNoteData` makes the metadata-index update
observable strictly before the content update (the trace is exactly
index write at position 0, content write at position 1); consequently a
read between the two observes the new metadata together with the OLD
content (the previous file text, empty when the file does not exist
yet). -/
theorem writeNote_metadata_first (s : UserStore) (noteId : String) (n : Note) :
    metaWritePos (writeNoteEvents s noteId n) = some 0 ∧
    contentWritePos (writeNoteEvents s noteId n) noteId = some 1 ∧
    readNoteData (applyFsEvent s (FsEvent.dbWrite (aset (loadUserDatabase s) noteId n.meta)))
        noteId = some ⟨n.meta, (alookup s.files noteId).getD ""⟩ := by
  refine ⟨?_, ?_, ?_⟩
  · simp [writeNoteEvents, metaWritePos, List.findIdx?]
  · simp [writeNoteEvents, contentWritePos, List.findIdx?]
  · simp [applyFsEvent, readNoteData, loadUserDatabase, alookup_aset_self]

/-- C2: resolution order of `readNoteData`.  (a) an index hit returns that
metadata with the content file's text, the empty string when the file is
missing; (b) on an index miss the legacy reader is consulted: the split
shape (`metadata.json` + optional `content.md`) first, then the combined
`note.json`, the first shape found being returned normalized as a `Note`;
and the read fails (NotFound) exactly when the index, the split shape and
the combined shape all lack data. -/
theorem readNoteData_resolution (s : UserStore) (noteId : String) :
    (∀ meta, alookup (loadUserDatabase s) noteId = some meta →
      readNoteData s noteId = some ⟨meta, (alookup s.files noteId).getD ""⟩) ∧
    (alookup (loadUserDatabase s) noteId = none →
      readNoteData s noteId = readLegacyNoteData s noteId) ∧
    (∀ dir meta, alookup s.legacy noteId = some dir → dir.metadataJson = some meta →
      readLegacyNoteData s noteId = some ⟨meta, dir.contentMd.getD ""⟩) ∧
    (∀ dir, alookup s.legacy noteId = some dir → dir.metadataJson = none →
      readLegacyNoteData s noteId = dir.noteJson) ∧
    (readNoteData s noteId = none ↔
      alookup (loadUserDatabase s) noteId = none ∧
      (∀ dir, alookup s.legacy noteId = some dir →
        dir.metadataJson = none ∧ dir.noteJson = none)) := by
  refine ⟨?_, ?_, ?_, ?_, ?_⟩
  · intro meta h; simp [readNoteData, h]
  · intro h; simp [readNoteData, h]
  · intro dir meta hdir hmeta; simp [readLegacyNoteData, hdir, hmeta]
  · intro dir hdir hmeta; simp [readLegacyNoteData, hdir, hmeta]
  · constructor
    · intro h
      rcases hdb : alookup (loadUserDatabase s) noteId with _ | meta
      · refine ⟨rfl, ?_⟩
        intro dir hdir
        rcases hmeta : dir.metadataJson with _ | m
        · refine ⟨rfl, ?_⟩
          simp [readNoteData, hdb, readLegacyNoteData, hdir, hmeta] at h
          exact h
        · simp [readNoteData, hdb, readLegacyNoteData, hdir, hmeta] at h
      · simp [readNoteData, hdb] at h
    · rintro ⟨hdb, hleg⟩
      simp only [readNoteData, hdb, readLegacyNoteData]
      rcases hdir : alookup s.legacy noteId with _ | dir
      · rfl
      · rcases hleg dir hdir with ⟨h1, h2⟩
        simp [h1, h2]

/-- Witness for C2 at a concrete store: the index hit returns the indexed
metadata together with the markdown file's text. -/
theorem readNoteData_resolution_witness :
    readNoteData exStore "abc123" = some ⟨exMeta, "- milk"⟩ := by
  have h := (readNoteData_resolution exStore "abc123").1 exMeta (by decide)
  simpa using h

/-! ## Deletion (route `DELETE /api/file/:noteId`) -/

/-- The delete route: remove the index entry (the index defaulting to
empty when its file is unreadable), unlink the markdown file (tolerating
absence), and remove the media directory recursively (force, tolerating
absence).  Each removal is best-effort and the route never fails. -/
def deleteNote (s : UserStore) (id : String) : UserStore :=
  { s with db := some (aerase (loadUserDatabase s) id),
           files := aerase s.files id,
           media := s.media.filter fun m => m != id }

theorem filter_idem {α : Type} (p : α → Bool) (l : List α) :
    (l.filter p).filter p = l.filter p := by
  induction l with
  | nil => rfl
  | cons h t ih =>
    by_cases hp : p h
    · simp [List.filter_cons, hp, ih]
    · simp [List.filter_cons, hp, ih]

theorem filter_ne_of_not_mem (l : List String) (id : String) (h : id ∉ l) :
    (l.filter fun m => m != id) = l := by
  induction l with
  | nil => rfl
  | cons x t ih =>
    simp only [List.mem_cons] at h
    push_neg at h
    have hx : (x != id) = true := by simp [bne, Ne.symm h.1]
    simp [List.filter_cons, hx, ih h.2]

/-- C7: delete removes the metadata index entry, the content file and the
media directory; it is a total operation (never an error), deleting twice
equals deleting once, and when any of the three is already absent that
part of the state is left exactly as it was. -/
theorem deleteNote_idempotent_best_effort (s : UserStore) (id : String) :
    alookup (loadUserDatabase (deleteNote s id)) id = none ∧
    alookup (deleteNote s id).files id = none ∧
    id ∉ (deleteNote s id).media ∧
    deleteNote (deleteNote s id) id = deleteNote s id ∧
    (alookup (loadUserDatabase s) id = none →
      loadUserDatabase (deleteNote s id) = loadUserDatabase s) ∧
    (alookup s.files id = none → (deleteNote s id).files = s.files) ∧
    (id ∉ s.media → (deleteNote s id).media = s.media) := by
  refine ⟨?_, ?_, ?_, ?_, ?_, ?_, ?_⟩
  · simp [deleteNote, loadUserDatabase, alookup_aerase_self]
  · simp [deleteNote, alookup_aerase_self]
  · intro hmem
    simp only [deleteNote, List.mem_filter] at hmem
    simp [bne] at hmem
  · simp [deleteNote, loadUserDatabase, aerase_aerase, filter_idem]
  · intro h
    have h2 : aerase (s.db.getD []) id = s.db.getD [] := aerase_of_none _ _ h
    simp [deleteNote, loadUserDatabase, h2]
  · intro h; simp [deleteNote, aerase_of_none _ _ h]
  · intro h; simp [deleteNote, filter_ne_of_not_mem _ _ h]

/-- Witness for C7 on a store that has no trace of the note at all. -/
theorem deleteNote_idempotent_best_effort_witness :
    loadUserDatabase (deleteNote freshStore "zzz") = loadUserDatabase freshStore ∧
    (deleteNote freshStore "zzz").files = freshStore.files ∧
    (deleteNote freshStore "zzz").media = freshStore.media :=
  ⟨(deleteNote_idempotent_best_effort freshStore "zzz").2.2.2.2.1 (by decide),
   (deleteNote_idempotent_best_effort freshStore "zzz").2.2.2.2.2.1 (by decide),
   (deleteNote_idempotent_best_effort freshStore "zzz").2.2.2.2.2.2 (by decide)⟩

/-! ## Summary derivation (inside `getNotesForUser`) -/

/-- The characters removed by the summary's first regex:
`#`, `*`, `_`, `~`, the backquote, `[`, `]` (given by code point). -/
def isMdPunct (c : Char) : Bool :=
  ([35, 42, 95, 126, 96, 91, 93] : List Nat).contains c.toNat

/-- First regex replace: drop every markdown punctuation character. -/
def stripMd (l : List Char) : List Char := l.filter fun c => !(isMdPunct c)

/-- Second regex replace: each maximal run of newlines becomes one space
(the flag records whether we are inside a newline run). -/
def collapseNLAux : Bool → List Char → List Char
  | _, [] => []
  | inRun, c :: rest =>
    if c = '\n' then
      if inRun then collapseNLAux true rest
      else ' ' :: collapseNLAux true rest
    else c :: collapseNLAux false rest

/-- JS `trim`: drop whitespace from both ends. -/
def trimL (l : List Char) : List Char :=
  ((l.dropWhile Char.isWhitespace).reverse.dropWhile Char.isWhitespace).reverse

/-- The processed preview text: strip punctuation, collapse newline runs
to spaces, trim. -/
def processedOf (md : String) : List Char :=
  trimL (collapseNLAux false (stripMd md.toList))

/-- The summary exactly as `getNotesForUser` computes it: empty content
gives an empty summary; otherwise the processed text is truncated to 100
characters and `...` is appended when the RAW markdown is longer than 100
characters. -/
def summaryOf (md : String) : String :=
  if md = "" then ""
  else String.mk ((processedOf md).take 100) ++
    (if 100 < md.toList.length then "..." else "")

/-- Modelled from the spec sentence of C9: same processing, but the
ellipsis is appended exactly when the PREVIEW was truncated, i.e. when
the processed text itself exceeds the 100-character preview length. -/
def specSummaryOf (md : String) : String :=
  let p := processedOf md
  String.mk (p.take 100) ++ (if 100 < p.length then "..." else "")

/-- The amended summary: ellipsis appended exactly when the raw content
exceeds 100 characters. -/
def specSummaryAmd (md : String) : String :=
  String.mk ((processedOf md).take 100) ++
    (if 100 < md.toList.length then "..." else "")

/-- 101 hash marks: all stripped by the punctuation regex, so the preview
is empty and untruncated, yet the raw content is longer than 100. -/
def mdHashes : String := String.mk (List.replicate 101 '#')

/-- C9 counterexample: on 101 hash marks the code produces just the
ellipsis although the preview (empty) was never truncated; the summary
claimed in the spec would be the empty string. -/
theorem summary_ellipsis_claim_false :
    summaryOf mdHashes = "..." ∧ processedOf mdHashes = [] ∧
    specSummaryOf mdHashes = "" := by decide

/-- C9 amended: the summary is the pure function of content that strips
markdown punctuation, collapses newline runs, trims, truncates to 100
characters, and appends the ellipsis exactly when the raw content length
exceeds 100 (not when the preview was truncated). -/
theorem summaryOf_eq_amended (md : String) : summaryOf md = specSummaryAmd md := by
  by_cases h : md = ""
  · subst h; decide
  · simp [summaryOf, specSummaryAmd, h]

/-! ## Search (`searchNotes`) -/

/-- Needle-starts-hay test over character lists. -/
def startsWithL : List Char → List Char → Bool
  | [], _ => true
  | _ :: _, [] => false
  | c :: cs, h :: hs => c == h && startsWithL cs hs

/-- Substring containment over character lists (JS `String.includes`). -/
def containsSub (needle : List Char) : List Char → Bool
  | [] => needle.isEmpty
  | h :: hs => startsWithL needle (h :: hs) || containsSub needle hs

/-- JS `hay.includes(needle)`. -/
def strIncludes (hay needle : String) : Bool := containsSub needle.toList hay.toList

/-- JS `toLowerCase` (ASCII), written over the character list. -/
def lowerStr (s : String) : String := String.mk (s.toList.map Char.toLower)

/-- The per-note match test of `searchNotes` (query already lowercased by
the route): lowercased title containment, OR nonempty lowercased content
containment, OR some lowercased tag containment.  Groups are NOT
consulted. -/
def noteMatches (meta : NoteMeta) (md q : String) : Bool :=
  strIncludes (lowerStr meta.title) q ||
  (!(md == "") && strIncludes (lowerStr md) q) ||
  meta.tags.any fun t => strIncludes (lowerStr t) q

/-- One search result record: title, note id, first 100 characters of the
content, tags. -/
structure SearchResult where
  name : String
  path : String
  preview : String
  tags : List String
deriving DecidableEq

/-- `searchNotes`: linear scan of the metadata index, reading each note's
content file (missing file as empty) and keeping the notes that match. -/
def searchNotes (s : UserStore) (q : String) : List SearchResult :=
  ((loadUserDatabase s).filter fun kv =>
      noteMatches kv.2 ((alookup s.files kv.1).getD "") q).map fun kv =>
    ⟨kv.2.title, kv.1, String.mk (((alookup s.files kv.1).getD "").toList.take 100),
      kv.2.tags⟩

/-- The route `GET /api/search` lowercases the query before scanning. -/
def searchNotesApi (s : UserStore) (q : String) : List SearchResult :=
  searchNotes s (lowerStr q)

/-- Modelled from the spec sentence of C6: the four-field match predicate
(title, content, tags, groups). -/
def claimFieldMatch (meta : NoteMeta) (md q : String) : Bool :=
  strIncludes (lowerStr meta.title) q ||
  strIncludes (lowerStr md) q ||
  (meta.tags.any fun t => strIncludes (lowerStr t) q) ||
  (meta.groups.any fun g => strIncludes (lowerStr g) q)

/-- A note whose only hit for the query "work" is in its group set. -/
def gMeta : NoteMeta := ⟨"a", [], ["Work"], false, none, none, 0, 0⟩

def groupStore : UserStore := ⟨some [("n1", gMeta)], [], [], []⟩

/-- C6 counterexample: the note's group set contains the query, so the
claimed four-field test matches, yet `searchNotes` returns no result —
the code never tests groups. -/
theorem search_groups_claim_false :
    claimFieldMatch gMeta ((alookup groupStore.files "n1").getD "") "work" = true ∧
    alookup (loadUserDatabase groupStore) "n1" = some gMeta ∧
    searchNotes groupStore "work" = [] := by decide

theorem alookup_eq_none_of_not_mem {α : Type} (l : List (String × α)) (id : String)
    (h : id ∉ l.map Prod.fst) : alookup l id = none := by
  induction l with
  | nil => rfl
  | cons hd t ih =>
    simp only [List.map_cons, List.mem_cons] at h
    push_neg at h
    have hne : hd.1 ≠ id := fun hc => h.1 hc.symm
    simp [alookup, hne, ih h.2]

theorem any_map_eq {α β : Type} (l : List α) (f : α → β) (p : β → Bool) :
    (l.map f).any p = l.any fun x => p (f x) := by
  induction l with
  | nil => rfl
  | cons hd t ih => simp [ih]

theorem filter_any_key (l : List (String × NoteMeta)) (p : (String × NoteMeta) → Bool)
    (id : String) (meta : NoteMeta) (hnd : (l.map Prod.fst).Nodup)
    (hmem : alookup l id = some meta) :
    ((l.filter p).any fun kv => kv.1 == id) = p (id, meta) := by
  induction l with
  | nil => simp [alookup] at hmem
  | cons hd t ih =>
    obtain ⟨k1, v1⟩ := hd
    simp only [List.map_cons, List.nodup_cons] at hnd
    by_cases hk : k1 = id
    · have hmv : v1 = meta := by
        simp only [alookup, if_pos hk] at hmem
        exact Option.some.inj hmem
      have hR : p (id, meta) = p (k1, v1) := by rw [← hk, ← hmv]
      have htail : ((t.filter p).any fun kv => kv.1 == id) = false := by
        simp only [List.any_eq_false, beq_iff_eq]
        intro kv hkv hcon
        apply hnd.1
        rw [hk, ← hcon]
        exact List.mem_map_of_mem Prod.fst (List.mem_filter.mp hkv).1
      by_cases hp : p (k1, v1) = true
      · simp only [List.filter_cons, if_pos hp, List.any_cons, htail, Bool.or_false]
        rw [hR, hp]
        simp [hk]
      · have hp2 : p (k1, v1) = false := by simpa using hp
        rw [List.filter_cons, if_neg hp, htail, hR, hp2]
    · simp only [alookup, if_neg hk] at hmem
      have hbq : (k1 == id) = false := by
        simp only [beq_eq_false_iff_ne, ne_eq]
        exact hk
      by_cases hp : p (k1, v1) = true
      · simp only [List.filter_cons, if_pos hp, List.any_cons, hbq, Bool.false_or]
        exact ih hnd.2 hmem
      · rw [List.filter_cons, if_neg hp]
        exact ih hnd.2 hmem

/-- C6 amended: search case-insensitively tests the note's title, content
and tag set for substring containment (groups are not consulted), and a
note with a unique identifier is included in the results exactly when one
of those three fields contains the query. -/
theorem searchNotes_matches_three_fields (s : UserStore) (q id : String) (meta : NoteMeta)
    (hnd : ((loadUserDatabase s).map Prod.fst).Nodup)
    (hmem : alookup (loadUserDatabase s) id = some meta) :
    (((searchNotes s q).any fun r => r.path == id) = true ↔
      noteMatches meta ((alookup s.files id).getD "") q = true) := by
  unfold searchNotes
  rw [any_map_eq, filter_any_key (loadUserDatabase s) _ id meta hnd hmem]

/-- Witness for C6 amended: the scenario note matches the query "milk"
through its content and is returned. -/
theorem searchNotes_matches_three_fields_witness :
    ((searchNotes exStore "milk").any fun r => r.path == "abc123") = true :=
  (searchNotes_matches_three_fields exStore "milk" "abc123" exMeta (by decide)
    (by decide)).mpr (by decide)

/-! ## Listing (`getNotesForUser`) -/

/-- One entry of the `GET /api/files` response. -/
structure NoteListing where
  id : String
  name : String
  path : String
  entryType : String
  tags : List String
  groups : List String
  isPasswordProtected : Bool
  isShared : Bool
  shareId : Option String
  createdAt : Nat
  updatedAt : Nat
  summary : String
deriving DecidableEq

/-- Build one listing entry from an index entry, reading the markdown
file (missing file tolerated as empty) and deriving the summary. -/
def mkListing (s : UserStore) (kv : String × NoteMeta) : NoteListing :=
  let md := (alookup s.files kv.1).getD ""
  { id := kv.1
    name := if kv.2.title = "" then "Untitled" else kv.2.title
    path := kv.1
    entryType := "file"
    tags := kv.2.tags
    groups := kv.2.groups
    isPasswordProtected := kv.2.isPasswordProtected
    isShared := kv.2.shareId.isSome
    shareId := kv.2.shareId
    createdAt := kv.2.createdAt
    updatedAt := kv.2.updatedAt
    summary := summaryOf md }

/-- Stable insertion for the sort by `updatedAt` descending. -/
def insertByUpdated (x : NoteListing) : List NoteListing → List NoteListing
  | [] => [x]
  | y :: ys => if y.updatedAt < x.updatedAt then x :: y :: ys else y :: insertByUpdated x ys

/-- Sort by last-updated timestamp, most recent first. -/
def sortByUpdatedDesc (l : List NoteListing) : List NoteListing :=
  l.foldr insertByUpdated []

/-- `getNotesForUser`: one listing entry per metadata index entry, sorted
by `updatedAt` descending. -/
def getNotesForUser (s : UserStore) : List NoteListing :=
  sortByUpdatedDesc ((loadUserDatabase s).map (mkListing s))

/-! ## Installation-wide state -/

/-- One file of the `shared/` directory: the share token maps to the
owning user, the note, and a creation timestamp. -/
structure ShareEntry where
  userId : String
  noteId : String
  createdAt : Nat
deriving DecidableEq

/-- The whole installation: `users.json` (account records, opaque),
`users-index.json` (none when unreadable), the per-user stores keyed by
user id (a key is present exactly when the user's directory exists), and
the `shared/` registry keyed by share token. -/
structure SystemState where
  users : List (String × String)
  usersIndex : Option (List String)
  stores : List (String × UserStore)
  shared : List (String × ShareEntry)
deriving DecidableEq

/-- The store the filesystem presents for a user id: the user's directory
when it exists, otherwise no index file, no content files, no media, no
legacy directories. -/
def storeOf (st : SystemState) (u : String) : UserStore :=
  (alookup st.stores u).getD ⟨none, [], [], []⟩

/-- `writeNoteData` lifted to the installation (writes into the user's
directory). -/
def writeNoteSys (st : SystemState) (u id : String) (n : Note) : SystemState :=
  { st with stores := aset st.stores u (writeNoteData (storeOf st u) id n) }

/-- The delete route lifted to the installation: it only touches the
user's own directory — in particular it never touches `shared/`. -/
def deleteNoteSys (st : SystemState) (u id : String) : SystemState :=
  { st with stores := aset st.stores u (deleteNote (storeOf st u) id) }

/-- C8: read-side operations against a user with no store on disk, or an
unreadable index file, yield the empty index and the empty listing —
never an error. -/
theorem emptyStore_reads_empty (st : SystemState) (u : String) :
    (alookup st.stores u = none →
      loadUserDatabase (storeOf st u) = [] ∧ getNotesForUser (storeOf st u) = []) ∧
    (∀ s, alookup st.stores u = some s → s.db = none →
      loadUserDatabase s = [] ∧ getNotesForUser s = []) := by
  constructor
  · intro h
    have hs : storeOf st u = ⟨none, [], [], []⟩ := by simp [storeOf, h]
    rw [hs]
    exact ⟨rfl, rfl⟩
  · intro s _ hdb
    constructor
    · simp [loadUserDatabase, hdb]
    · simp [getNotesForUser, loadUserDatabase, hdb, sortByUpdatedDesc]

/-- Witness for C8: the empty installation. -/
theorem emptyStore_reads_empty_witness :
    loadUserDatabase (storeOf ⟨[], some [], [], []⟩ "alice") = [] ∧
    getNotesForUser (storeOf ⟨[], some [], [], []⟩ "alice") = [] :=
  (emptyStore_reads_empty ⟨[], some [], [], []⟩ "alice").1 (by decide)

/-! ## Share registry (C4, C5) -/

/-- `GET /api/shared/:shareId` resolution step: read the token's file in
`shared/` and learn the owning (user, note) pair; fails with NotFound
when the token has no file. -/
def resolveShare (st : SystemState) (token : String) : Option (String × String) :=
  (alookup st.shared token).map fun e => (e.userId, e.noteId)

/-- The state after a fresh share creation: the note rewritten with the
fresh token stamped in, then the token's file created in `shared/`. -/
def createShareState (st : SystemState) (u id fresh : String) (now : Nat)
    (data : Note) : SystemState :=
  let st1 := writeNoteSys st u id
    ⟨{ data.meta with shareId := some fresh, updatedAt := now }, data.markdown⟩
  { st1 with shared := aset st1.shared fresh ⟨u, id, now⟩ }

/-- `POST /api/file/share/:noteId`: read the note (NotFound fails the
route); when it has no share id yet, stamp a fresh one into the note,
write the note back, and create the token's file in `shared/`; otherwise
return the existing share id unchanged. -/
def createShare (st : SystemState) (u id fresh : String) (now : Nat) :
    Option (SystemState × String) :=
  match readNoteData (storeOf st u) id with
  | none => none
  | some data =>
    match data.meta.shareId with
    | some sid => some (st, sid)
    | none => some (createShareState st u id fresh now data, fresh)

/-- The state after a revocation of share `sid`: the token's file removed
from `shared/`, then the note rewritten with its share id cleared. -/
def revokeShareState (st : SystemState) (u id sid : String) (now : Nat)
    (data : Note) : SystemState :=
  writeNoteSys { st with shared := aerase st.shared sid } u id
    ⟨{ data.meta with shareId := none, updatedAt := now }, data.markdown⟩

/-- `DELETE /api/file/share/:noteId`: read the note; when it carries a
share id, remove the token's file from `shared/` (tolerating absence),
clear the note's share id and write the note back. -/
def revokeShare (st : SystemState) (u id : String) (now : Nat) : Option SystemState :=
  match readNoteData (storeOf st u) id with
  | none => none
  | some data =>
    match data.meta.shareId with
    | none => some st
    | some sid => some (revokeShareState st u id sid now data)

theorem readNoteData_writeNoteData (s : UserStore) (id : String) (n : Note) :
    readNoteData (writeNoteData s id n) id = some n := by
  obtain ⟨m, md⟩ := n
  simp [writeNoteData, writeNoteEvents, applyFsEvent, readNoteData, loadUserDatabase,
    alookup_aset_self]

theorem storeOf_writeNoteSys (st : SystemState) (u id : String) (n : Note) :
    storeOf (writeNoteSys st u id n) u = writeNoteData (storeOf st u) id n := by
  simp [storeOf, writeNoteSys, alookup_aset_self]

/-- C4: for a note that exists, creating a share with a fresh token makes
the token resolve to the originating (user, note) pair and stamps the
token into the note; revoking a note's share makes its token resolve to
NotFound and clears the note's share id field. -/
theorem share_create_revoke_consistent (st : SystemState) (u id fresh : String)
    (now now2 : Nat) (data : Note)
    (hread : readNoteData (storeOf st u) id = some data) :
    (data.meta.shareId = none →
      createShare st u id fresh now = some (createShareState st u id fresh now data, fresh) ∧
      resolveShare (createShareState st u id fresh now data) fresh = some (u, id) ∧
      (readNoteData (storeOf (createShareState st u id fresh now data) u) id).map
        (fun nn => nn.meta.shareId) = some (some fresh)) ∧
    (∀ sid, data.meta.shareId = some sid →
      revokeShare st u id now2 = some (revokeShareState st u id sid now2 data) ∧
      resolveShare (revokeShareState st u id sid now2 data) sid = none ∧
      (readNoteData (storeOf (revokeShareState st u id sid now2 data) u) id).map
        (fun nn => nn.meta.shareId) = some none) := by
  constructor
  · intro hnone
    refine ⟨?_, ?_, ?_⟩
    · simp only [createShare, hread, hnone]
    · simp [createShareState, resolveShare, writeNoteSys, alookup_aset_self]
    · have h1 : storeOf (createShareState st u id fresh now data) u =
          writeNoteData (storeOf st u) id
            ⟨{ data.meta with shareId := some fresh, updatedAt := now }, data.markdown⟩ := by
        simp [createShareState, storeOf, writeNoteSys, alookup_aset_self]
      rw [h1, readNoteData_writeNoteData]
      rfl
  · intro sid hsid
    refine ⟨?_, ?_, ?_⟩
    · simp only [revokeShare, hread, hsid]
    · simp [revokeShareState, resolveShare, writeNoteSys, alookup_aerase_self]
    · have h1 : storeOf (revokeShareState st u id sid now2 data) u =
          writeNoteData (storeOf st u) id
            ⟨{ data.meta with shareId := none, updatedAt := now2 }, data.markdown⟩ := by
        simp [revokeShareState, storeOf, writeNoteSys, alookup_aset_self]
      rw [h1, readNoteData_writeNoteData]
      rfl

/-- A one-user installation whose single note has no share yet. -/
def shMeta : NoteMeta := ⟨"Groceries", [], [], false, none, none, 1, 1⟩

def shSys0 : SystemState :=
  ⟨[("alice", "acct")], some ["alice"],
   [("alice", ⟨some [("n1", shMeta)], [("n1", "hello")], [], []⟩)], []⟩

/-- Witness for C4: creating a share for the concrete note makes the
token resolve to (alice, n1) and stamps the token into the note. -/
theorem share_create_revoke_consistent_witness :
    createShare shSys0 "alice" "n1" "tok" 5 =
      some (createShareState shSys0 "alice" "n1" "tok" 5 ⟨shMeta, "hello"⟩, "tok") ∧
    resolveShare (createShareState shSys0 "alice" "n1" "tok" 5 ⟨shMeta, "hello"⟩) "tok" =
      some ("alice", "n1") :=
  ⟨((share_create_revoke_consistent shSys0 "alice" "n1" "tok" 5 0 ⟨shMeta, "hello"⟩
      (by decide)).1 (by decide)).1,
   ((share_create_revoke_consistent shSys0 "alice" "n1" "tok" 5 0 ⟨shMeta, "hello"⟩
      (by decide)).1 (by decide)).2.1⟩

/-- A one-user installation whose note n1 is shared under token "tok". -/
def shMetaShared : NoteMeta := ⟨"Groceries", [], [], false, none, some "tok", 1, 1⟩

def shSys1 : SystemState :=
  ⟨[("alice", "acct")], some ["alice"],
   [("alice", ⟨some [("n1", shMetaShared)], [("n1", "hello")], [], []⟩)],
   [("tok", ⟨"alice", "n1", 1⟩)]⟩

/-- C5 counterexample: deleting the shared note n1 leaves its token's
entry in the share registry untouched — the registry entry still exists
(it is not `none`), contradicting the claim that note deletion destroys
the Share Entry. -/
theorem deleteNote_share_claim_false :
    alookup shSys1.shared "tok" = some ⟨"alice", "n1", 1⟩ ∧
    alookup (deleteNoteSys shSys1 "alice" "n1").shared "tok" =
      some ⟨"alice", "n1", 1⟩ := by decide

/-- C5 amended: note deletion leaves the share registry exactly as it
was (the note's token dangles); a subsequent read of the deleted note
(as resolution would perform) fails with NotFound when the note has no
legacy data, so resolving the dangling token fails at the note-read
step, but the Share Entry itself survives. -/
theorem deleteNote_preserves_shared (st : SystemState) (u id : String) :
    (deleteNoteSys st u id).shared = st.shared ∧
    (alookup (storeOf st u).legacy id = none →
      readNoteData (storeOf (deleteNoteSys st u id) u) id = none) := by
  constructor
  · rfl
  · intro h
    have hs : storeOf (deleteNoteSys st u id) u = deleteNote (storeOf st u) id := by
      simp [storeOf, deleteNoteSys, alookup_aset_self]
    rw [hs]
    simp [readNoteData, loadUserDatabase, deleteNote, alookup_aerase_self,
      readLegacyNoteData, h]

/-- Witness for C5 amended at the concrete shared installation. -/
theorem deleteNote_preserves_shared_witness :
    readNoteData (storeOf (deleteNoteSys shSys1 "alice" "n1") "alice") "n1" = none :=
  (deleteNote_preserves_shared shSys1 "alice" "n1").2 (by decide)

/-! ## Saving through `POST /api/file/:noteId` (C10) -/

/-- The request body of the save endpoint; absent JSON fields are `none`,
and `isPasswordProtected` is taken by its truthiness. -/
structure SaveBody where
  markdown : Option String
  title : Option String
  tags : Option (List String)
  groups : Option (List String)
  password : Option String
  isPasswordProtected : Bool
deriving DecidableEq

/-- JS truthiness of an optional string (undefined and the empty string
are falsy). -/
def jsTruthy : Option String → Bool
  | none => false
  | some s => !(s == "")

/-- `title || 'Untitled'`: the body's title, defaulting when absent or
empty. -/
def savedTitle (b : SaveBody) : String :=
  match b.title with
  | some t => if t = "" then "Untitled" else t
  | none => "Untitled"

/-- The password field the save route ends up storing: a new hash when
protection is enabled and a (truthy) password is supplied; the carried
value while protection is enabled with no new password (absent stays
absent); no password field otherwise. -/
def savedPassword (carried : Option String) (b : SaveBody)
    (hash : String → String) : Option String :=
  if b.isPasswordProtected then
    if jsTruthy b.password then some (hash (b.password.getD "")) else carried
  else none

/-- The note the save route builds before calling `writeNoteData`:
defaults for every field, then — when the note already exists (the route
reads it first; `existing` is that result) — `createdAt`, `shareId` are
carried forward, `groups` falls back to the existing groups when the body
carries none, and the password hash is renewed from a supplied password
or else carried forward while protection stays enabled.  `hash` is the
opaque bcrypt capability, `now` the clock. -/
def saveNote (existing : Option Note) (b : SaveBody) (hash : String → String)
    (now : Nat) : Note :=
  match existing with
  | some e =>
    ⟨{ title := savedTitle b, tags := b.tags.getD [],
       groups := (match b.groups with
         | none => e.meta.groups
         | some g => g),
       isPasswordProtected := b.isPasswordProtected,
       password := savedPassword e.meta.password b hash,
       shareId := e.meta.shareId,
       createdAt := e.meta.createdAt, updatedAt := now }, b.markdown.getD ""⟩
  | none =>
    ⟨{ title := savedTitle b, tags := b.tags.getD [], groups := b.groups.getD [],
       isPasswordProtected := b.isPasswordProtected,
       password := savedPassword none b hash,
       shareId := none, createdAt := now, updatedAt := now }, b.markdown.getD ""⟩

/-- C10: saving over an existing note carries `createdAt` and `shareId`
forward from the existing note; when protection stays enabled and the
body supplies no (nonempty) password, the existing password hash is kept
exactly; and the remaining fields — title, content, tags, groups,
protection flag, `updatedAt` — come from the request (groups falling back
to the existing groups only when the body carries none). -/
theorem saveNote_preserves_fields (e : Note) (b : SaveBody) (hash : String → String)
    (now : Nat) :
    (saveNote (some e) b hash now).meta.createdAt = e.meta.createdAt ∧
    (saveNote (some e) b hash now).meta.shareId = e.meta.shareId ∧
    (b.isPasswordProtected = true → jsTruthy b.password = false →
      (saveNote (some e) b hash now).meta.password = e.meta.password) ∧
    (saveNote (some e) b hash now).meta.updatedAt = now ∧
    (saveNote (some e) b hash now).meta.isPasswordProtected = b.isPasswordProtected ∧
    (∀ t, b.title = some t → t ≠ "" → (saveNote (some e) b hash now).meta.title = t) ∧
    (saveNote (some e) b hash now).meta.tags = b.tags.getD [] ∧
    (∀ g, b.groups = some g → (saveNote (some e) b hash now).meta.groups = g) ∧
    (b.groups = none → (saveNote (some e) b hash now).meta.groups = e.meta.groups) ∧
    (saveNote (some e) b hash now).markdown = b.markdown.getD "" := by
  refine ⟨rfl, rfl, ?_, rfl, rfl, ?_, rfl, ?_, ?_, rfl⟩
  · intro h1 h2
    simp [saveNote, savedPassword, h1, h2]
  · intro t ht hne
    simp [saveNote, savedTitle, ht, hne]
  · intro g hg
    simp [saveNote, hg]
  · intro hg
    simp [saveNote, hg]

/-- Witness for C10: a concrete protected note saved again with no new
password keeps its hash, timestamps and share id. -/
theorem saveNote_preserves_fields_witness :
    (saveNote (some ⟨⟨"T", [], ["g"], true, some "HASH", some "tok", 3, 4⟩, "body"⟩)
        ⟨some "new", some "T2", some ["x"], none, none, true⟩ (fun p => p) 9).meta.password =
      some "HASH" :=
  (saveNote_preserves_fields ⟨⟨"T", [], ["g"], true, some "HASH", some "tok", 3, 4⟩, "body"⟩
    ⟨some "new", some "T2", some ["x"], none, none, true⟩ (fun p => p) 9).2.2.1
    (by decide) (by decide)

/-! ## Backup import (`POST /api/admin/import`, C3) -/

/-- The per-user slice of a backup document: the user's exported metadata
index (absent when the backup lacks it) and the exported markdown files
keyed by note id. -/
structure BackupUserData where
  database : Option (List (String × NoteMeta))
  notes : List (String × String)
deriving DecidableEq

/-- A validated backup document: account records, the exported user index
and the per-user data. -/
structure Backup where
  users : List (String × String)
  usersIndex : List String
  userData : List (String × BackupUserData)
deriving DecidableEq

/-- `addUserToSystemIndex`: append the user id to `users-index.json` when
absent; an unreadable index file is tolerated (no write). -/
def addUserToSystemIndex (st : SystemState) (u : String) : SystemState :=
  match st.usersIndex with
  | none => st
  | some l => if u ∈ l then st else { st with usersIndex := some (l ++ [u]) }

/-- `ensureUserDir`: create the user's directory, notes directory and an
empty index file when the directory is missing (also registering the user
in the system index); when the directory exists, only make sure the index
file exists. -/
def ensureUserDir (st : SystemState) (u : String) : SystemState :=
  match alookup st.stores u with
  | none => addUserToSystemIndex { st with stores := aset st.stores u freshStore } u
  | some s => { st with stores := aset st.stores u { s with db := some (s.db.getD []) } }

/-- One step of the import's account loop: an account absent locally is
added (and its directory created); an account present locally is left
untouched. -/
def importUserStep (st : SystemState) (e : String × String) : SystemState :=
  if (alookup st.users e.1).isSome then st
  else ensureUserDir { st with users := st.users ++ [e] } e.1

/-- Push each name absent from the list, in order. -/
def pushNames (l names : List String) : List String :=
  names.foldl (fun acc n => if n ∈ acc then acc else acc ++ [n]) l

/-- The import's user-index merge: push each backup index name absent
from the local index; an unreadable local index is tolerated. -/
def mergeUsersIndex (st : SystemState) (names : List String) : SystemState :=
  match st.usersIndex with
  | none => st
  | some l => { st with usersIndex := some (pushNames l names) }

/-- One step of the import's per-user data loop: ensure the user's
directory, merge the backup's index entries additively (existing notes
untouched), and write each backup markdown file only when no file exists
for that note id. -/
def importUserDataStep (st : SystemState) (e : String × BackupUserData) : SystemState :=
  let st1 := ensureUserDir st e.1
  let s := storeOf st1 e.1
  let s1 := match e.2.database with
    | none => s
    | some bn => { s with db := some (amerge (s.db.getD []) bn) }
  let s2 := { s1 with files := amerge s1.files e.2.notes }
  { st1 with stores := aset st1.stores e.1 s2 }

/-- `POST /api/admin/import`: merge accounts, merge the user index, then
merge every user's data, in that order. -/
def importBackup (st : SystemState) (b : Backup) : SystemState :=
  b.userData.foldl importUserDataStep
    (mergeUsersIndex (b.users.foldl importUserStep st) b.usersIndex)

/-- The metadata index the filesystem presents for a user. -/
def dbOf (st : SystemState) (u : String) : List (String × NoteMeta) :=
  loadUserDatabase (storeOf st u)

/-- The content files the filesystem presents for a user. -/
def filesOf (st : SystemState) (u : String) : List (String × String) :=
  (storeOf st u).files

/-- The user's directory exists and its index file is present. -/
def storeReady (st : SystemState) (u : String) : Prop :=
  ∃ s, alookup st.stores u = some s ∧ s.db.isSome

/-- Membership in the system index, whenever that index is readable. -/
def idxHas (st : SystemState) (n : String) : Prop :=
  ∀ l, st.usersIndex = some l → n ∈ l

theorem addUserToSystemIndex_users (st : SystemState) (u : String) :
    (addUserToSystemIndex st u).users = st.users := by
  rcases h : st.usersIndex with _ | l
  · simp [addUserToSystemIndex, h]
  · by_cases h2 : u ∈ l <;> simp [addUserToSystemIndex, h, h2]

theorem addUserToSystemIndex_stores (st : SystemState) (u : String) :
    (addUserToSystemIndex st u).stores = st.stores := by
  rcases h : st.usersIndex with _ | l
  · simp [addUserToSystemIndex, h]
  · by_cases h2 : u ∈ l <;> simp [addUserToSystemIndex, h, h2]

theorem ensureUserDir_users (st : SystemState) (u : String) :
    (ensureUserDir st u).users = st.users := by
  rcases h : alookup st.stores u with _ | s
  · simp [ensureUserDir, h, addUserToSystemIndex_users]
  · simp [ensureUserDir, h]

theorem storeOf_record_users (users2 : List (String × String)) (st : SystemState)
    (u : String) : storeOf { st with users := users2 } u = storeOf st u := rfl

theorem dbOf_ensure (st : SystemState) (v u : String) :
    dbOf (ensureUserDir st v) u = dbOf st u := by
  rcases h : alookup st.stores v with _ | s
  · by_cases huv : v = u
    · subst huv
      simp [ensureUserDir, h, dbOf, storeOf, loadUserDatabase,
        addUserToSystemIndex_stores, alookup_aset_self, freshStore]
    · simp [ensureUserDir, h, dbOf, storeOf, addUserToSystemIndex_stores,
        alookup_aset_ne _ _ _ _ huv]
  · by_cases huv : v = u
    · subst huv
      simp [ensureUserDir, h, dbOf, storeOf, loadUserDatabase, alookup_aset_self]
    · simp [ensureUserDir, h, dbOf, storeOf, alookup_aset_ne _ _ _ _ huv]

theorem filesOf_ensure (st : SystemState) (v u : String) :
    filesOf (ensureUserDir st v) u = filesOf st u := by
  rcases h : alookup st.stores v with _ | s
  · by_cases huv : v = u
    · subst huv
      simp [ensureUserDir, h, filesOf, storeOf, addUserToSystemIndex_stores,
        alookup_aset_self, freshStore]
    · simp [ensureUserDir, h, filesOf, storeOf, addUserToSystemIndex_stores,
        alookup_aset_ne _ _ _ _ huv]
  · by_cases huv : v = u
    · subst huv
      simp [ensureUserDir, h, filesOf, storeOf, alookup_aset_self]
    · simp [ensureUserDir, h, filesOf, storeOf, alookup_aset_ne _ _ _ _ huv]

theorem storeReady_ensure (st : SystemState) (v u : String)
    (h : storeReady st u) : storeReady (ensureUserDir st v) u := by
  rcases h with ⟨s, hs, hdb⟩
  rcases hv : alookup st.stores v with _ | s2
  · by_cases huv : v = u
    · subst huv; rw [hv] at hs; simp at hs
    · exact ⟨s, by simp [ensureUserDir, hv, addUserToSystemIndex_stores,
        alookup_aset_ne _ _ _ _ huv, hs], hdb⟩
  · by_cases huv : v = u
    · subst huv
      exact ⟨{ s2 with db := some (s2.db.getD []) },
        by simp [ensureUserDir, hv, alookup_aset_self], by simp⟩
    · exact ⟨s, by simp [ensureUserDir, hv, alookup_aset_ne _ _ _ _ huv, hs], hdb⟩

theorem storeReady_ensure_self (st : SystemState) (v : String) :
    storeReady (ensureUserDir st v) v := by
  rcases hv : alookup st.stores v with _ | s2
  · exact ⟨freshStore, by simp [ensureUserDir, hv, addUserToSystemIndex_stores,
      alookup_aset_self], by simp [freshStore]⟩
  · exact ⟨{ s2 with db := some (s2.db.getD []) },
      by simp [ensureUserDir, hv, alookup_aset_self], by simp⟩

theorem idxHas_addUser (st : SystemState) (v n : String)
    (h : idxHas st n) : idxHas (addUserToSystemIndex st v) n := by
  intro l2 hl2
  rcases hidx : st.usersIndex with _ | l
  · have he : addUserToSystemIndex st v = st := by simp [addUserToSystemIndex, hidx]
    rw [he, hidx] at hl2
    simp at hl2
  · by_cases h2 : v ∈ l
    · have he : addUserToSystemIndex st v = st := by simp [addUserToSystemIndex, hidx, h2]
      rw [he] at hl2
      exact h l2 hl2
    · have he : (addUserToSystemIndex st v).usersIndex = some (l ++ [v]) := by
        simp [addUserToSystemIndex, hidx, h2]
      rw [he] at hl2
      have hl3 : l ++ [v] = l2 := Option.some.inj hl2
      rw [← hl3]
      exact List.mem_append_left _ (h l hidx)

theorem idxHas_ensure (st : SystemState) (v n : String)
    (h : idxHas st n) : idxHas (ensureUserDir st v) n := by
  rcases hv : alookup st.stores v with _ | s
  · simp only [ensureUserDir, hv]
    exact idxHas_addUser _ v n h
  · intro l hl
    simp [ensureUserDir, hv] at hl
    exact h l hl

theorem importUserStep_users_some (st : SystemState) (e : String × String)
    (u a : String) (h : alookup st.users u = some a) :
    alookup (importUserStep st e).users u = some a := by
  by_cases hp : (alookup st.users e.1).isSome
  · simp [importUserStep, hp, h]
  · simp only [importUserStep, if_neg hp]
    rw [ensureUserDir_users]
    exact alookup_append_of_some _ _ _ _ h

theorem importUserStep_users_self (st : SystemState) (e : String × String) :
    (alookup (importUserStep st e).users e.1).isSome := by
  by_cases hp : (alookup st.users e.1).isSome
  · simp only [importUserStep, if_pos hp]; exact hp
  · simp only [importUserStep, if_neg hp]
    rw [ensureUserDir_users]
    have hnone : alookup st.users e.1 = none := Option.not_isSome_iff_eq_none.mp hp
    have h2 := alookup_append_single_of_none st.users e.1 e.2 hnone
    exact Option.isSome_iff_exists.mpr ⟨e.2, h2⟩

theorem importUserStep_dbOf (st : SystemState) (e : String × String) (u : String) :
    dbOf (importUserStep st e) u = dbOf st u := by
  by_cases hp : (alookup st.users e.1).isSome
  · simp [importUserStep, hp]
  · simp only [importUserStep, if_neg hp]
    exact dbOf_ensure _ _ _

theorem importUserStep_filesOf (st : SystemState) (e : String × String) (u : String) :
    filesOf (importUserStep st e) u = filesOf st u := by
  by_cases hp : (alookup st.users e.1).isSome
  · simp [importUserStep, hp]
  · simp only [importUserStep, if_neg hp]
    exact filesOf_ensure _ _ _

theorem importUserStep_storeReady (st : SystemState) (e : String × String) (u : String)
    (h : storeReady st u) : storeReady (importUserStep st e) u := by
  by_cases hp : (alookup st.users e.1).isSome
  · simp only [importUserStep, if_pos hp]; exact h
  · simp only [importUserStep, if_neg hp]
    exact storeReady_ensure _ _ _ h

theorem importUserStep_idxHas (st : SystemState) (e : String × String) (n : String)
    (h : idxHas st n) : idxHas (importUserStep st e) n := by
  by_cases hp : (alookup st.users e.1).isSome
  · simp only [importUserStep, if_pos hp]; exact h
  · simp only [importUserStep, if_neg hp]
    exact idxHas_ensure _ _ _ h

theorem mergeUsersIndex_users (st : SystemState) (names : List String) :
    (mergeUsersIndex st names).users = st.users := by
  rcases h : st.usersIndex with _ | l <;> simp [mergeUsersIndex, h]

theorem mergeUsersIndex_stores (st : SystemState) (names : List String) :
    (mergeUsersIndex st names).stores = st.stores := by
  rcases h : st.usersIndex with _ | l <;> simp [mergeUsersIndex, h]

theorem mergeUsersIndex_dbOf (st : SystemState) (names : List String) (u : String) :
    dbOf (mergeUsersIndex st names) u = dbOf st u := by
  simp [dbOf, storeOf, mergeUsersIndex_stores]

theorem mergeUsersIndex_filesOf (st : SystemState) (names : List String) (u : String) :
    filesOf (mergeUsersIndex st names) u = filesOf st u := by
  simp [filesOf, storeOf, mergeUsersIndex_stores]

theorem mergeUsersIndex_storeReady (st : SystemState) (names : List String) (u : String)
    (h : storeReady st u) : storeReady (mergeUsersIndex st names) u := by
  rcases h with ⟨s, hs, hdb⟩
  exact ⟨s, by rw [mergeUsersIndex_stores]; exact hs, hdb⟩

theorem pushNames_cons (l : List String) (m : String) (t : List String) :
    pushNames l (m :: t) = pushNames (if m ∈ l then l else l ++ [m]) t := rfl

theorem pushNames_mem_preserved (names : List String) (l : List String) (n : String)
    (h : n ∈ l) : n ∈ pushNames l names := by
  induction names generalizing l with
  | nil => exact h
  | cons m t ih =>
    rw [pushNames_cons]
    by_cases hm : m ∈ l
    · rw [if_pos hm]; exact ih l h
    · rw [if_neg hm]; exact ih _ (List.mem_append_left _ h)

theorem pushNames_mem (names : List String) (l : List String) (n : String)
    (h : n ∈ names) : n ∈ pushNames l names := by
  induction names generalizing l with
  | nil => simp at h
  | cons m t ih =>
    rw [pushNames_cons]
    rcases List.mem_cons.mp h with h1 | h1
    · subst h1
      by_cases hm : n ∈ l
      · rw [if_pos hm]; exact pushNames_mem_preserved t l n hm
      · rw [if_neg hm]
        exact pushNames_mem_preserved t _ n (List.mem_append_right _ (by simp))
    · by_cases hm : m ∈ l
      · rw [if_pos hm]; exact ih l h1
      · rw [if_neg hm]; exact ih _ h1

theorem pushNames_id (names : List String) (l : List String)
    (h : ∀ n ∈ names, n ∈ l) : pushNames l names = l := by
  induction names with
  | nil => rfl
  | cons m t ih =>
    rw [pushNames_cons, if_pos (h m (by simp))]
    exact ih fun n hn => h n (by simp [hn])

theorem mergeUsersIndex_idxHas_mem (st : SystemState) (names : List String) (n : String)
    (h : n ∈ names) : idxHas (mergeUsersIndex st names) n := by
  intro l2 hl2
  rcases hidx : st.usersIndex with _ | l
  · have he : mergeUsersIndex st names = st := by simp [mergeUsersIndex, hidx]
    rw [he, hidx] at hl2
    simp at hl2
  · have he : (mergeUsersIndex st names).usersIndex = some (pushNames l names) := by
      simp [mergeUsersIndex, hidx]
    rw [he] at hl2
    have hl3 : pushNames l names = l2 := Option.some.inj hl2
    rw [← hl3]
    exact pushNames_mem names l n h

theorem importUserDataStep_users (st : SystemState) (e : String × BackupUserData) :
    (importUserDataStep st e).users = st.users := by
  simp [importUserDataStep, ensureUserDir_users]

theorem importUserDataStep_dbOf_self (st : SystemState) (e : String × BackupUserData) :
    dbOf (importUserDataStep st e) e.1 = amerge (dbOf st e.1) (e.2.database.getD []) := by
  have he : dbOf (ensureUserDir st e.1) e.1 = dbOf st e.1 := dbOf_ensure st e.1 e.1
  rcases hbd : e.2.database with _ | bn
  · simp only [importUserDataStep, hbd, Option.getD_none, amerge_nil]
    simp only [dbOf, storeOf, loadUserDatabase, alookup_aset_self, Option.getD_some]
    exact he
  · simp only [importUserDataStep, hbd, Option.getD_some]
    simp only [dbOf, storeOf, loadUserDatabase, alookup_aset_self, Option.getD_some]
    exact congrArg (fun x => amerge x bn) he

theorem importUserDataStep_filesOf_self (st : SystemState) (e : String × BackupUserData) :
    filesOf (importUserDataStep st e) e.1 = amerge (filesOf st e.1) e.2.notes := by
  have he : filesOf (ensureUserDir st e.1) e.1 = filesOf st e.1 := filesOf_ensure st e.1 e.1
  rcases hbd : e.2.database with _ | bn
  · simp only [importUserDataStep, hbd]
    simp only [filesOf, storeOf, alookup_aset_self, Option.getD_some]
    exact congrArg (fun x => amerge x e.2.notes) he
  · simp only [importUserDataStep, hbd]
    simp only [filesOf, storeOf, alookup_aset_self, Option.getD_some]
    exact congrArg (fun x => amerge x e.2.notes) he

theorem importUserDataStep_dbOf_ne (st : SystemState) (e : String × BackupUserData)
    (u : String) (h : u ≠ e.1) : dbOf (importUserDataStep st e) u = dbOf st u := by
  have he : dbOf (ensureUserDir st e.1) u = dbOf st u := dbOf_ensure st e.1 u
  have hne : e.1 ≠ u := fun hc => h hc.symm
  simp only [importUserDataStep]
  simp only [dbOf, storeOf, alookup_aset_ne _ _ _ _ hne]
  exact he

theorem importUserDataStep_filesOf_ne (st : SystemState) (e : String × BackupUserData)
    (u : String) (h : u ≠ e.1) : filesOf (importUserDataStep st e) u = filesOf st u := by
  have he : filesOf (ensureUserDir st e.1) u = filesOf st u := filesOf_ensure st e.1 u
  have hne : e.1 ≠ u := fun hc => h hc.symm
  simp only [importUserDataStep]
  simp only [filesOf, storeOf, alookup_aset_ne _ _ _ _ hne]
  exact he

theorem importUserDataStep_storeReady_self (st : SystemState) (e : String × BackupUserData) :
    storeReady (importUserDataStep st e) e.1 := by
  rcases storeReady_ensure_self st e.1 with ⟨s0, hs0, hdb0⟩
  have hst : storeOf (ensureUserDir st e.1) e.1 = s0 := by simp [storeOf, hs0]
  rcases hbd : e.2.database with _ | bn
  · refine ⟨{ s0 with files := amerge s0.files e.2.notes }, ?_, by simpa using hdb0⟩
    simp only [importUserDataStep, hbd, alookup_aset_self, hst]
  · refine ⟨{ s0 with db := some (amerge (s0.db.getD []) bn), files := amerge s0.files e.2.notes }, ?_, by simp⟩
    simp only [importUserDataStep, hbd, alookup_aset_self, hst]

theorem importUserDataStep_storeReady (st : SystemState) (e : String × BackupUserData)
    (u : String) (h : storeReady st u) : storeReady (importUserDataStep st e) u := by
  by_cases hu : u = e.1
  · subst hu; exact importUserDataStep_storeReady_self st e
  · rcases storeReady_ensure st e.1 u h with ⟨s, hs, hdb⟩
    have hne : e.1 ≠ u := fun hc => hu hc.symm
    exact ⟨s, by simp only [importUserDataStep, alookup_aset_ne _ _ _ _ hne]; exact hs, hdb⟩

theorem importUserDataStep_idxHas (st : SystemState) (e : String × BackupUserData)
    (n : String) (h : idxHas st n) : idxHas (importUserDataStep st e) n := by
  intro l hl
  simp only [importUserDataStep] at hl
  exact idxHas_ensure st e.1 n h l hl

theorem foldUS_users_some (l : List (String × String)) (st : SystemState) (u a : String)
    (h : alookup st.users u = some a) :
    alookup ((l.foldl importUserStep st)).users u = some a := by
  induction l generalizing st with
  | nil => exact h
  | cons e t ih => exact ih _ (importUserStep_users_some st e u a h)

theorem foldUS_users_mem (l : List (String × String)) (st : SystemState)
    (e : String × String) (he : e ∈ l) :
    (alookup (l.foldl importUserStep st).users e.1).isSome := by
  induction l generalizing st with
  | nil => simp at he
  | cons hd t ih =>
    rw [List.foldl_cons]
    rcases List.mem_cons.mp he with h1 | h1
    · rw [← h1]
      rcases Option.isSome_iff_exists.mp (importUserStep_users_self st e) with ⟨a, ha⟩
      exact Option.isSome_iff_exists.mpr ⟨a, foldUS_users_some t _ e.1 a ha⟩
    · exact ih _ h1

theorem foldUS_dbOf (l : List (String × String)) (st : SystemState) (u : String) :
    dbOf (l.foldl importUserStep st) u = dbOf st u := by
  induction l generalizing st with
  | nil => rfl
  | cons e t ih => rw [List.foldl_cons, ih, importUserStep_dbOf]

theorem foldUS_filesOf (l : List (String × String)) (st : SystemState) (u : String) :
    filesOf (l.foldl importUserStep st) u = filesOf st u := by
  induction l generalizing st with
  | nil => rfl
  | cons e t ih => rw [List.foldl_cons, ih, importUserStep_filesOf]

theorem foldUD_users (l : List (String × BackupUserData)) (st : SystemState) :
    (l.foldl importUserDataStep st).users = st.users := by
  induction l generalizing st with
  | nil => rfl
  | cons e t ih => rw [List.foldl_cons, ih, importUserDataStep_users]

theorem foldUD_dbOf_some (l : List (String × BackupUserData)) (st : SystemState)
    (u id : String) (m : NoteMeta) (h : alookup (dbOf st u) id = some m) :
    alookup (dbOf (l.foldl importUserDataStep st) u) id = some m := by
  induction l generalizing st with
  | nil => exact h
  | cons e t ih =>
    rw [List.foldl_cons]
    apply ih
    by_cases hu : u = e.1
    · subst hu
      rw [importUserDataStep_dbOf_self]
      exact amerge_lookup_some _ _ _ _ h
    · rw [importUserDataStep_dbOf_ne st e u hu]
      exact h

theorem foldUD_filesOf_some (l : List (String × BackupUserData)) (st : SystemState)
    (u id : String) (c : String) (h : alookup (filesOf st u) id = some c) :
    alookup (filesOf (l.foldl importUserDataStep st) u) id = some c := by
  induction l generalizing st with
  | nil => exact h
  | cons e t ih =>
    rw [List.foldl_cons]
    apply ih
    by_cases hu : u = e.1
    · subst hu
      rw [importUserDataStep_filesOf_self]
      exact amerge_lookup_some _ _ _ _ h
    · rw [importUserDataStep_filesOf_ne st e u hu]
      exact h

theorem foldUD_dbOf_mem (l : List (String × BackupUserData)) (st : SystemState)
    (e : String × BackupUserData) (id : String) (m : NoteMeta) (he : e ∈ l)
    (hm : (id, m) ∈ e.2.database.getD []) :
    (alookup (dbOf (l.foldl importUserDataStep st) e.1) id).isSome := by
  induction l generalizing st with
  | nil => simp at he
  | cons hd t ih =>
    rw [List.foldl_cons]
    rcases List.mem_cons.mp he with h1 | h1
    · rw [← h1]
      have h0 : (alookup (dbOf (importUserDataStep st e) e.1) id).isSome := by
        rw [importUserDataStep_dbOf_self]
        exact amerge_isSome_of_mem _ _ _ m hm
      rcases Option.isSome_iff_exists.mp h0 with ⟨w, hw⟩
      exact Option.isSome_iff_exists.mpr ⟨w, foldUD_dbOf_some t _ e.1 id w hw⟩
    · exact ih _ h1

theorem foldUD_filesOf_mem (l : List (String × BackupUserData)) (st : SystemState)
    (e : String × BackupUserData) (id : String) (c : String) (he : e ∈ l)
    (hm : (id, c) ∈ e.2.notes) :
    (alookup (filesOf (l.foldl importUserDataStep st) e.1) id).isSome := by
  induction l generalizing st with
  | nil => simp at he
  | cons hd t ih =>
    rw [List.foldl_cons]
    rcases List.mem_cons.mp he with h1 | h1
    · rw [← h1]
      have h0 : (alookup (filesOf (importUserDataStep st e) e.1) id).isSome := by
        rw [importUserDataStep_filesOf_self]
        exact amerge_isSome_of_mem _ _ _ c hm
      rcases Option.isSome_iff_exists.mp h0 with ⟨w, hw⟩
      exact Option.isSome_iff_exists.mpr ⟨w, foldUD_filesOf_some t _ e.1 id w hw⟩
    · exact ih _ h1

theorem foldUD_storeReady (l : List (String × BackupUserData)) (st : SystemState)
    (u : String) (h : storeReady st u) :
    storeReady (l.foldl importUserDataStep st) u := by
  induction l generalizing st with
  | nil => exact h
  | cons e t ih => exact ih _ (importUserDataStep_storeReady st e u h)

theorem foldUD_storeReady_mem (l : List (String × BackupUserData)) (st : SystemState)
    (e : String × BackupUserData) (he : e ∈ l) :
    storeReady (l.foldl importUserDataStep st) e.1 := by
  induction l generalizing st with
  | nil => simp at he
  | cons hd t ih =>
    rw [List.foldl_cons]
    rcases List.mem_cons.mp he with h1 | h1
    · rw [← h1]
      exact foldUD_storeReady t _ e.1 (importUserDataStep_storeReady_self st e)
    · exact ih _ h1

theorem foldUD_idxHas (l : List (String × BackupUserData)) (st : SystemState)
    (n : String) (h : idxHas st n) :
    idxHas (l.foldl importUserDataStep st) n := by
  induction l generalizing st with
  | nil => exact h
  | cons e t ih => exact ih _ (importUserDataStep_idxHas st e n h)

theorem setDb_self (s : UserStore) (d : List (String × NoteMeta)) (h : s.db = some d) :
    { s with db := some d } = s := by
  cases s
  have h2 := h
  rw [← h2]

theorem setUsersIndex_self (st : SystemState) (l : List String)
    (h : st.usersIndex = some l) : { st with usersIndex := some l } = st := by
  cases st
  have h2 := h
  rw [← h2]

theorem importUserStep_fix (st : SystemState) (e : String × String)
    (h : (alookup st.users e.1).isSome) : importUserStep st e = st := by
  simp [importUserStep, h]

theorem ensureUserDir_fix (st : SystemState) (u : String) (s : UserStore)
    (d : List (String × NoteMeta)) (h : alookup st.stores u = some s)
    (hdb : s.db = some d) : ensureUserDir st u = st := by
  simp only [ensureUserDir, h]
  have h2 : some (s.db.getD []) = s.db := by rw [hdb]; rfl
  rw [h2]
  have h3 : ({ s with db := s.db } : UserStore) = s := rfl
  rw [h3, aset_self st.stores u s h]

theorem mergeUsersIndex_fix (st : SystemState) (names : List String)
    (h : ∀ n ∈ names, idxHas st n) : mergeUsersIndex st names = st := by
  rcases hidx : st.usersIndex with _ | l
  · simp [mergeUsersIndex, hidx]
  · have hp : pushNames l names = l := pushNames_id names l fun n hn => h n hn l hidx
    simp only [mergeUsersIndex, hidx, hp]
    exact setUsersIndex_self st l hidx

theorem importUserDataStep_fix (st : SystemState) (e : String × BackupUserData)
    (s : UserStore) (d : List (String × NoteMeta)) (h : alookup st.stores e.1 = some s)
    (hdb : s.db = some d)
    (hk : ∀ kv ∈ e.2.database.getD [], (alookup d kv.1).isSome)
    (hf : ∀ kv ∈ e.2.notes, (alookup s.files kv.1).isSome) :
    importUserDataStep st e = st := by
  have hens : ensureUserDir st e.1 = st := ensureUserDir_fix st e.1 s d h hdb
  have hst : storeOf st e.1 = s := by simp [storeOf, h]
  have hfid : amerge s.files e.2.notes = s.files := amerge_of_all_some _ _ hf
  rcases hbd : e.2.database with _ | bn
  · simp only [importUserDataStep, hens, hbd, hst, hfid]
    rw [show ({ s with files := s.files } : UserStore) = s from rfl,
      aset_self st.stores e.1 s h]
  · have hkid : amerge d bn = d := amerge_of_all_some d bn (by rw [hbd] at hk; exact hk)
    simp only [importUserDataStep, hens, hbd, hst, hdb, Option.getD_some, hkid, hfid]
    rw [show ({ s with db := some d, files := s.files } : UserStore) = { s with db := some d } from rfl,
      setDb_self s d hdb, aset_self st.stores e.1 s h]

/-- C3: backup import is additive-only and idempotent.  Accounts present
locally keep their record; accounts of the backup exist afterwards (those
absent locally are created).  For every user, metadata index entries
present locally keep their value; entries of the backup's index exist
afterwards.  Content files present locally keep their content; content
files of the backup exist afterwards (written only when absent).  And the
whole import is idempotent: importing the same backup twice yields
exactly the state of importing it once. -/
theorem importBackup_additive_idempotent (st : SystemState) (b : Backup) :
    (∀ u a, alookup st.users u = some a → alookup (importBackup st b).users u = some a) ∧
    (∀ e ∈ b.users, (alookup (importBackup st b).users e.1).isSome) ∧
    (∀ u id m, alookup (dbOf st u) id = some m →
      alookup (dbOf (importBackup st b) u) id = some m) ∧
    (∀ e ∈ b.userData, ∀ id m, (id, m) ∈ e.2.database.getD [] →
      (alookup (dbOf (importBackup st b) e.1) id).isSome) ∧
    (∀ u id c, alookup (filesOf st u) id = some c →
      alookup (filesOf (importBackup st b) u) id = some c) ∧
    (∀ e ∈ b.userData, ∀ id c, (id, c) ∈ e.2.notes →
      (alookup (filesOf (importBackup st b) e.1) id).isSome) ∧
    importBackup (importBackup st b) b = importBackup st b := by
  have hP1 : ∀ u a, alookup st.users u = some a →
      alookup (importBackup st b).users u = some a := by
    intro u a h
    simp only [importBackup]
    rw [foldUD_users, mergeUsersIndex_users]
    exact foldUS_users_some b.users st u a h
  have hP2 : ∀ e ∈ b.users, (alookup (importBackup st b).users e.1).isSome := by
    intro e he
    simp only [importBackup]
    rw [foldUD_users, mergeUsersIndex_users]
    exact foldUS_users_mem b.users st e he
  have hP3 : ∀ u id m, alookup (dbOf st u) id = some m →
      alookup (dbOf (importBackup st b) u) id = some m := by
    intro u id m h
    simp only [importBackup]
    apply foldUD_dbOf_some
    rw [mergeUsersIndex_dbOf, foldUS_dbOf]
    exact h
  have hP4 : ∀ e ∈ b.userData, ∀ id m, (id, m) ∈ e.2.database.getD [] →
      (alookup (dbOf (importBackup st b) e.1) id).isSome := by
    intro e he id m hm
    simp only [importBackup]
    exact foldUD_dbOf_mem b.userData _ e id m he hm
  have hP5 : ∀ u id c, alookup (filesOf st u) id = some c →
      alookup (filesOf (importBackup st b) u) id = some c := by
    intro u id c h
    simp only [importBackup]
    apply foldUD_filesOf_some
    rw [mergeUsersIndex_filesOf, foldUS_filesOf]
    exact h
  have hP6 : ∀ e ∈ b.userData, ∀ id c, (id, c) ∈ e.2.notes →
      (alookup (filesOf (importBackup st b) e.1) id).isSome := by
    intro e he id c hm
    simp only [importBackup]
    exact foldUD_filesOf_mem b.userData _ e id c he hm
  have hready : ∀ e ∈ b.userData, storeReady (importBackup st b) e.1 := by
    intro e he
    simp only [importBackup]
    exact foldUD_storeReady_mem b.userData _ e he
  have hidx : ∀ n ∈ b.usersIndex, idxHas (importBackup st b) n := by
    intro n hn
    simp only [importBackup]
    apply foldUD_idxHas
    exact mergeUsersIndex_idxHas_mem _ b.usersIndex n hn
  have hfix1 : b.users.foldl importUserStep (importBackup st b) = importBackup st b :=
    foldl_fixed _ _ _ fun e he => importUserStep_fix _ e (hP2 e he)
  have hfix2 : mergeUsersIndex (importBackup st b) b.usersIndex = importBackup st b :=
    mergeUsersIndex_fix _ _ fun n hn => hidx n hn
  have hfix3 : ∀ e ∈ b.userData, importUserDataStep (importBackup st b) e = importBackup st b := by
    intro e he
    rcases hready e he with ⟨s, hs, hdbs⟩
    rcases Option.isSome_iff_exists.mp hdbs with ⟨d, hd⟩
    apply importUserDataStep_fix _ e s d hs hd
    · intro kv hkv
      have h2 := hP4 e he kv.1 kv.2 hkv
      have hdbof : dbOf (importBackup st b) e.1 = d := by
        simp [dbOf, storeOf, loadUserDatabase, hs, hd]
      rw [hdbof] at h2
      exact h2
    · intro kv hkv
      have h2 := hP6 e he kv.1 kv.2 hkv
      have hfof : filesOf (importBackup st b) e.1 = s.files := by
        simp [filesOf, storeOf, hs]
      rw [hfof] at h2
      exact h2
  refine ⟨hP1, hP2, hP3, hP4, hP5, hP6, ?_⟩
  have hunf : importBackup (importBackup st b) b =
      b.userData.foldl importUserDataStep
        (mergeUsersIndex (b.users.foldl importUserStep (importBackup st b)) b.usersIndex) := rfl
  rw [hunf, hfix1, hfix2]
  exact foldl_fixed _ _ _ hfix3

/-- A small backup: one new account (bob) with one note, plus the
exported user index. -/
def bEx : Backup :=
  ⟨[("bob", "acct2")], ["bob"],
   [("bob", ⟨some [("m1", exMeta)], [("m1", "hi")]⟩)]⟩

/-- Witness for C3: importing `bEx` into the one-user installation keeps
alice's local note untouched and makes bob's backup note exist. -/
theorem importBackup_additive_idempotent_witness :
    alookup (dbOf (importBackup shSys0 bEx) "alice") "n1" = some shMeta ∧
    (alookup (dbOf (importBackup shSys0 bEx) "bob") "m1").isSome :=
  ⟨(importBackup_additive_idempotent shSys0 bEx).2.2.1 "alice" "n1" shMeta (by decide),
   (importBackup_additive_idempotent shSys0 bEx).2.2.2.1
     ("bob", ⟨some [("m1", exMeta)], [("m1", "hi")]⟩) (by decide) "m1" exMeta (by decide)⟩

end Whiteboard
